import Mathlib

/-!
Verification of the file-discovery / batched-ingestion core of the `cls`
repository (Go).  Go strings are modelled as lists of characters
(`GoStr`), filesystem paths as lists of components, and the filesystem
itself as a finite tree.  All definitions are translated from the Go
source (`main.go`, `chroma.go`, `dirextractor/dirextractor.go`).
-/

/-- A Go string, modelled as its sequence of characters. -/
abbrev GoStr := List Char

/-- A path, modelled as the list of its slash-separated components
(the result of `strings.Split(path, "/")` on the Go side). -/
abbrev GoPath := List GoStr

/-- A filesystem subtree.  A file carries `some content` when
`os.ReadFile` would succeed on it and `none` when the read fails; a
directory carries `readable = false` when reading its entry list fails
during a walk. -/
inductive FSTree where
  | file (name : GoStr) (content : Option GoStr)
  | dir (name : GoStr) (readable : Bool) (children : List FSTree)

/-- Go `filepath.Ext` restricted to the final path element: the suffix
of `n` beginning at its final dot, or the empty string when `n` has no
dot. -/
def goExt (n : GoStr) : GoStr :=
  let tl := n.reverse.takeWhile (fun c => c ≠ '.')
  if tl.length = n.length then [] else '.' :: tl.reverse

/-- Go `strings.ToLower` on ASCII input: lower-case every character. -/
def goToLower (s : GoStr) : GoStr := s.map Char.toLower

/-- Go `strings.HasPrefix(s, ".")`: the first character is a dot. -/
def startsDot (s : GoStr) : Bool := s.head? = some '.'

-- scratch checks
example : goExt "FILE.TXT".toList = ".TXT".toList := by decide
example : goToLower ".TXT".toList = ".txt".toList := by decide
example : startsDot ".git".toList = true := by decide

/-- The slash-joined path string handed to the filter functions of
`dirextractor` (the inverse of splitting on the path separator). -/
def pathStr (p : GoPath) : GoStr := List.intercalate ['/'] p

/-- Outcome of one filter function in `dirextractor`: the Go code
returns `nil` (accept), the sentinel error `Skip`, or `SkipDir`. -/
inductive FRes where
  | accept
  | skip
  | skipDir
deriving DecidableEq, Repr

/-- The filter options of `dirextractor`: `WithExtensions`,
`WithIgnoreHidden` and `WithIgnoreRegs`.  A compiled regular expression
is abstracted as the Boolean matching function it denotes. -/
inductive FilterSpec where
  | exts (allow : List GoStr)
  | hidden
  | regs (isMatch : GoStr → Bool)

/-- One filter function applied to the absolute path `p` (given as its
components).  Translated from `dirextractor.go`:
`WithExtensions` accepts iff `slices.Contains(ext, filepath.Ext(path))`
(no case folding); `WithIgnoreHidden` splits the path on the separator,
returns `SkipDir` when any component except the final two begins with a
dot, `Skip` when the final component begins with a dot, else accepts;
`WithIgnoreRegs` returns `Skip` when any pattern matches the full
path. -/
def filterEval : FilterSpec → GoPath → FRes
  | .exts allow, p => if allow.contains (goExt (p.getLast?.getD [])) then .accept else .skip
  | .hidden, p =>
      if (p.dropLast.dropLast).any startsDot then .skipDir
      else if startsDot (p.getLast?.getD []) then .skip
      else .accept
  | .regs m, p => if m (pathStr p) then .skip else .accept

/-- The `extractor.filter` method: run the registered filters in order
and return the first non-nil result. -/
def chainEval : List FilterSpec → GoPath → FRes
  | [], _ => .accept
  | s :: rest, p =>
      match filterEval s p with
      | .accept => chainEval rest p
      | r => r

/-- The walk performed by `extractor.Files` (via `filepath.WalkDir`)
over the entries of the directory whose absolute path has components
`cur`.  Directory entries make the callback return `nil` before any
filter runs, so the walk descends into every readable directory; when
reading a directory fails the callback is invoked once more with the
error, `d.IsDir()` still holds, and the error is swallowed (`nil`), so
the walk continues with the siblings.  A file is yielded when the
filter chain accepts it, dropped on `Skip`, and on `SkipDir` the
remaining entries of the containing directory are skipped
(`filepath.SkipDir` returned for a non-directory entry).  Sibling
order is taken to be the order of `children`. -/
def walkEntries (specs : List FilterSpec) (cur : GoPath) : List FSTree → List GoPath
  | [] => []
  | .file n _ :: rest =>
      match chainEval specs (cur ++ [n]) with
      | .accept => (cur ++ [n]) :: walkEntries specs cur rest
      | .skip => walkEntries specs cur rest
      | .skipDir => []
  | .dir n r cs :: rest =>
      (if r then walkEntries specs (cur ++ [n]) cs else []) ++ walkEntries specs cur rest

/-- The sequence produced by `extractor.Files` on a root whose absolute
path has components `root` and whose directory holds `entries` (the
consumer never stops early). -/
def dirFiles (specs : List FilterSpec) (root : GoPath) (entries : List FSTree) : List GoPath :=
  walkEntries specs root entries

/-- All file paths a full walk can reach (no filters): the reference
list the filtered walk is compared against.  Children of unreadable
directories are unreachable. -/
def allFiles (cur : GoPath) : List FSTree → List GoPath
  | [] => []
  | .file n _ :: rest => (cur ++ [n]) :: allFiles cur rest
  | .dir n r cs :: rest =>
      (if r then allFiles (cur ++ [n]) cs else []) ++ allFiles cur rest

/-- The record built by `collectFiles` for every indexed file
(`FileData` in `chroma.go`): full path, base name, content and size.
The path is kept as its list of components; the Go `Path` string is the
slash-join of these. -/
structure FileDataM where
  path : GoPath
  name : GoStr
  content : GoStr
  size : Nat
deriving DecidableEq, Repr

/-- The extension allow-set hard-coded in `collectFiles`
(`main.go`, `validExtensions`). -/
def validExtensions : List GoStr :=
  [".txt".toList, ".md".toList, ".go".toList, ".py".toList, ".js".toList,
   ".ts".toList, ".json".toList, ".yaml".toList, ".yml".toList, ".xml".toList,
   ".html".toList, ".css".toList, ".sh".toList, ".rs".toList, ".java".toList,
   ".c".toList, ".cpp".toList, ".h".toList, ".hpp".toList, ".sql".toList,
   ".dockerfile".toList, ".gitignore".toList, ".toml".toList, ".ini".toList,
   ".cfg".toList, ".conf".toList, ".nix".toList]

/-- The directory name `node_modules`, pruned unconditionally. -/
def nmName : GoStr := "node_modules".toList

/-- The directory name `.git`, pruned unconditionally. -/
def gitName : GoStr := ".git".toList

/-- The extension test of `collectFiles`:
`validExtensions[strings.ToLower(filepath.Ext(path))]`.  `filepath.Ext`
of the full path equals the extension of its final component. -/
def mainExtAccept (n : GoStr) : Bool :=
  validExtensions.contains (goToLower (goExt n))

/-- The walk body of `collectFiles` (`main.go`), recursing over the
entries of the directory at relative path `rel` below the root
`targetPath` (components `root`).  `ign` abstracts
`shouldIgnore(relPath, patterns)` for the patterns read from the
root's `.gitignore`.  `filepath.Walk` invokes the callback once per
directory, after reading it, passing the read error when the read
failed — and the callback's first statement (`main.go` line 48)
returns that error, before any prune check runs.  So, per entry, in
source order: an unreadable directory makes the whole walk abort with
the error, whatever the directory's name; then, for readable
directories, those named `node_modules` or `.git` are pruned,
`shouldIgnore` prunes directories and skips files, hidden directories
are pruned and hidden files skipped (unreadable directories inside a
pruned subtree are never reached); files failing the extension test
are skipped; files whose read fails are skipped with a warning; the
rest are collected.  The error value is the path of the offending
directory (`collectFiles` wraps it with
`fmt.Errorf("error walking filepath: %w", err)`). -/
def collectEntries (ign : GoPath → Bool) (root rel : GoPath) :
    List FSTree → Except GoPath (List FileDataM)
  | [] => .ok []
  | .file n c :: rest =>
      match collectEntries ign root rel rest with
      | .error e => .error e
      | .ok tl =>
        if ign (rel ++ [n]) then .ok tl
        else if startsDot n then .ok tl
        else if mainExtAccept n then
          match c with
          | some data =>
              .ok ({ path := root ++ rel ++ [n], name := n,
                     content := data, size := data.length } :: tl)
          | none => .ok tl
        else .ok tl
  | .dir n r cs :: rest =>
      if !r then .error (root ++ rel ++ [n])
      else if n = nmName ∨ n = gitName then collectEntries ign root rel rest
      else if ign (rel ++ [n]) then collectEntries ign root rel rest
      else if startsDot n then collectEntries ign root rel rest
      else
        match collectEntries ign root (rel ++ [n]) cs with
        | .error e => .error e
        | .ok xs =>
          match collectEntries ign root rel rest with
          | .error e => .error e
          | .ok tl => .ok (xs ++ tl)

/-- `collectFiles(targetPath)`: walk the root's entries starting from
the empty relative path. -/
def collectFiles (ign : GoPath → Bool) (root : GoPath) (entries : List FSTree) :
    Except GoPath (List FileDataM) :=
  collectEntries ign root [] entries

/-- The first unreadable directory the walk of `collectFiles` reaches
(in traversal order), if any: the reference value for the walk-error
behaviour.  The name checks cannot shield an unreadable directory —
the walk error arrives before they run — but directories inside a
pruned readable subtree are never reached. -/
def firstUnreadable (ign : GoPath → Bool) (root rel : GoPath) :
    List FSTree → Option GoPath
  | [] => none
  | .file _ _ :: rest => firstUnreadable ign root rel rest
  | .dir n r cs :: rest =>
      if !r then some (root ++ rel ++ [n])
      else if n = nmName ∨ n = gitName then firstUnreadable ign root rel rest
      else if ign (rel ++ [n]) then firstUnreadable ign root rel rest
      else if startsDot n then firstUnreadable ign root rel rest
      else
        match firstUnreadable ign root (rel ++ [n]) cs with
        | some p => some p
        | none => firstUnreadable ign root rel rest

/-- Slice bounds produced by the batch loop of `BatchAddDocuments` in
`chroma.go`: `for i := 0; i < len(paths); i += batchSize` slicing
`paths[i:max(i+batchSize, len(paths))]`.  Each pair is the
`(low, high)` pair of one slice expression, for item count `n` and
batch size `b`, starting at index `i`.  Note the `max` where a correct
clamp would be `min`. -/
def chromaBatchBounds (n b i : Nat) : List (Nat × Nat) :=
  if h : 0 < b ∧ i < n then (i, Nat.max (i + b) n) :: chromaBatchBounds n b (i + b)
  else []
termination_by n - i
decreasing_by omega

/-- The batch loop of the ids-based `BatchAddDocuments` variant (second
part of `dirextractor.go`): `end := i + batchSize;
if end > len { end = len }`, one chunk `l[i:end]` per iteration.
Expressed by taking and dropping `b` elements per iteration. -/
def batchChunks (b : Nat) (l : List α) : List (List α) :=
  if h : 0 < b ∧ 0 < l.length then l.take b :: batchChunks b (l.drop b)
  else []
termination_by l.length
decreasing_by
  simp only [List.length_drop]
  omega

/-- One `Collection.Add` call of the paths-based `BatchAddDocuments`
(`chroma.go`): the three parallel slot arrays, pre-sized to the chunk.
On a read failure the loop body `continue`s, leaving the zero value in
all three slots of that index (empty id, empty text, nil metadata). -/
structure AddCall where
  ids : List GoStr
  texts : List GoStr
  metas : List (Option GoStr)
deriving DecidableEq, Repr

/-- The per-chunk loop of `BatchAddDocuments` (`chroma.go`, lines
154-169): read every path of the chunk; a failed read leaves the slot
at the zero value; afterwards `coll.Add` is invoked once with the
three arrays, whatever the reads did. -/
def buildAddCall (read : GoStr → Option GoStr) (chunk : List GoStr) : AddCall :=
  { ids := chunk.map (fun p => match read p with | some _ => p | none => [])
  , texts := chunk.map (fun p => match read p with | some data => data | none => [])
  , metas := chunk.map (fun p => match read p with | some _ => some p | none => none) }

/-- A metadata record of one boundary query result, with the two
string attributes `Query` looks up (`GetString` returns the value and
an `ok` flag, modelled by `Option`). -/
structure GoMetadata where
  filename : Option GoStr
  path : Option GoStr
deriving DecidableEq, Repr

/-- The flat result record `QueryResult` (`chroma.go`). -/
structure QueryResultM where
  fileName : GoStr
  path : GoStr
  content : GoStr
deriving DecidableEq, Repr, Inhabited

/-- The result mapping of `Collection.Query` (`chroma.go`, lines
116-140; identical in the second part of `dirextractor.go`): if the
documents groups are empty or the first group is empty, return the
empty result list (and no error); otherwise map the first documents
group in order, filling `filename` and `path` from the first metadata
group when present (empty string otherwise) and the content from the
document. -/
def queryMap (documents : List (List GoStr)) (metadatas : List (List GoMetadata)) :
    List QueryResultM :=
  match documents with
  | [] => []
  | docs0 :: _ =>
    if docs0.length = 0 then []
    else docs0.mapIdx (fun i doc =>
      if 0 < metadatas.length ∧ i < (metadatas.head?.getD []).length then
        let md := (metadatas.head?.getD []).getD i ⟨none, none⟩
        { fileName := md.filename.getD []
        , path := md.path.getD []
        , content := doc }
      else { fileName := [], path := [], content := doc })

/-- Modelled from the spec (§4.3), for comparison with `queryMap`:
map the boundary's first group to a flat ordered list of
(filename, path, content), substituting the empty string for any
absent metadata field, and an empty list when there are no matches. -/
def querySpec (documents : List (List GoStr)) (metadatas : List (List GoMetadata)) :
    List QueryResultM :=
  match documents.head? with
  | none => []
  | some ds => ds.mapIdx (fun i doc =>
      { fileName := (((metadatas.head?.getD []).get? i).bind (fun md => md.filename)).getD []
      , path := (((metadatas.head?.getD []).get? i).bind (fun md => md.path)).getD []
      , content := doc })

/-- A call to the storage boundary, as observed at the `ChromaClient` /
`Collection` interfaces of `main.go`. -/
inductive StoreCall where
  | getOrCreateCollection (name : GoStr)
  | getCollection (name : GoStr)
  | deleteCollection (name : GoStr)
  | queryCall (text : GoStr) (n : Nat)
  | add
deriving DecidableEq, Repr

/-- The boundary calls `queryDB` (`main.go`, lines 244-269) makes on
its success path, in program order: the collection is fetched, the
query is issued, and then both are repeated verbatim. -/
def queryDBCalls (collection q : GoStr) : List StoreCall :=
  [ .getCollection collection, .queryCall q 5
  , .getCollection collection, .queryCall q 5 ]

/-- The boundary calls `deleteCollection` (`main.go`, lines 296-307)
makes on its success path, in program order: `DeleteCollection` is
invoked twice. -/
def deleteCollectionCalls (collection : GoStr) : List StoreCall :=
  [ .deleteCollection collection, .deleteCollection collection ]

/-- The printing loop of `queryDB`
(`for i := len(results) - 1; i >= 0; i--`): `printFrom rs k` is what
the loop prints while the index runs from `k - 1` down to `0`. -/
def printFrom (rs : List QueryResultM) : Nat → List QueryResultM
  | 0 => []
  | k + 1 => rs.getD k default :: printFrom rs k

/-- The full output order of the loop. -/
def printedOrder (rs : List QueryResultM) : List QueryResultM :=
  printFrom rs rs.length

/-- `strings.ReplaceAll(s, "/", "_")`: replacing one character by
another is a character-wise map. -/
def goReplaceSlash (s : GoStr) : GoStr := s.map (fun c => if c = '/' then '_' else c)

/-- The identifiers `indexFile` (`main.go`, line 217) derives for the
collected files: the slash-joined path with `/` replaced by `_`. -/
def docIDs (files : List FileDataM) : List GoStr :=
  files.map (fun fd => goReplaceSlash (pathStr fd.path))

/-- A hidden directory (name `.h`) holding an ordinary file
`v.txt` that passes every other filter. -/
def c2Tree : List FSTree :=
  [ FSTree.dir ['.', 'h'] true [ FSTree.file ['v', '.', 't', 'x', 't'] (some ['x']) ] ]

/-- A root holding one ordinary collectable file, used to instantiate
the `collectFiles` half of the amended C2. -/
def c2wTree : List FSTree := [ FSTree.file ['a', '.', 'g', 'o'] (some ['x']) ]

/-- A directory tree whose two files have distinct paths
(`r/a/b.txt` and `r/a_b.txt`) that collide after `/` is replaced
with `_`. -/
def c3Tree : List FSTree :=
  [ FSTree.dir ['a'] true [FSTree.file ['b', '.', 't', 'x', 't'] (some ['x'])]
  , FSTree.file ['a', '_', 'b', '.', 't', 'x', 't'] (some ['y']) ]

/-- The record `collectFiles` builds for `r/a/b.txt`. -/
def fdA : FileDataM :=
  { path := [['r'], ['a'], ['b', '.', 't', 'x', 't']],
    name := ['b', '.', 't', 'x', 't'], content := ['x'], size := 1 }

/-- The record `collectFiles` builds for `r/a_b.txt`. -/
def fdB : FileDataM :=
  { path := [['r'], ['a', '_', 'b', '.', 't', 'x', 't']],
    name := ['a', '_', 'b', '.', 't', 'x', 't'], content := ['y'], size := 1 }

/-- A tree of two ordinary files with distinct, underscore-free
paths. -/
def c3wTree : List FSTree :=
  [ FSTree.file ['a', '.', 'g', 'o'] (some ['x'])
  , FSTree.file ['b', '.', 'g', 'o'] (some ['y']) ]

/-- The record `collectFiles` builds for `r/a.go`. -/
def fdWA : FileDataM :=
  { path := [['r'], ['a', '.', 'g', 'o']], name := ['a', '.', 'g', 'o'],
    content := ['x'], size := 1 }

/-- The record `collectFiles` builds for `r/b.go`. -/
def fdWB : FileDataM :=
  { path := [['r'], ['b', '.', 'g', 'o']], name := ['b', '.', 'g', 'o'],
    content := ['y'], size := 1 }

/-- An unreadable directory `u` (with a file inside) followed by an
ordinary file `a.txt`. -/
def c5Tree : List FSTree :=
  [ FSTree.dir ['u'] false [FSTree.file ['x', '.', 't', 'x', 't'] (some ['x'])]
  , FSTree.file ['a', '.', 't', 'x', 't'] (some ['y']) ]

/-- An unreadable directory alone under the root. -/
def c5wTree : List FSTree := [ FSTree.dir ['d'] false [] ]

/-- A concrete two-element ranked result list: its top result. -/
def qrTop : QueryResultM := { fileName := ['a'], path := ['p'], content := ['c'] }

/-- A concrete second-ranked result. -/
def qrLow : QueryResultM := { fileName := ['b'], path := ['q'], content := ['d'] }

/-- Every reachable file path strictly extends the path of the
directory being walked. -/
theorem mem_allFiles {q : GoPath} : ∀ (cur : GoPath) (es : List FSTree),
    q ∈ allFiles cur es → ∃ suf, suf ≠ [] ∧ q = cur ++ suf := by
  intro cur es
  induction cur, es using allFiles.induct with
  | case1 cur => simp [allFiles]
  | case2 cur n c rest ih =>
    intro hq
    rcases List.mem_cons.mp (by simpa [allFiles] using hq) with h | h
    · exact ⟨[n], by simp, h⟩
    · exact ih h
  | case3 cur n r cs rest ih₁ ih₂ =>
    intro hq
    rcases (by simpa [allFiles] using hq :
        (r = true ∧ q ∈ allFiles (cur ++ [n]) cs) ∨ q ∈ allFiles cur rest) with ⟨hr, h⟩ | h
    · rcases ih₁ h with ⟨suf, hne, hsuf⟩
      exact ⟨n :: suf, by simp, by simp [hsuf]⟩
    · exact ih₂ h

/-- If some registered filter rejects a path then the whole chain
rejects it (the chain returns its first non-nil result). -/
theorem chainEval_ne_accept_of_mem {s : FilterSpec} {p : GoPath} :
    ∀ specs : List FilterSpec, s ∈ specs → filterEval s p ≠ .accept →
    chainEval specs p ≠ .accept := by
  intro specs
  induction specs with
  | nil => simp
  | cons t rest ih =>
    intro hmem hne
    rcases List.mem_cons.mp hmem with h | h
    · subst h
      cases hft : filterEval s p with
      | accept => exact absurd hft hne
      | skip => simp [chainEval, hft]
      | skipDir => simp [chainEval, hft]
    · cases hft : filterEval t p with
      | accept => simpa [chainEval, hft] using ih h hne
      | skip => simp [chainEval, hft]
      | skipDir => simp [chainEval, hft]

/-- The extension filter never prunes a subtree. -/
theorem filterEval_exts_ne_skipDir (allow : List GoStr) (p : GoPath) :
    filterEval (.exts allow) p ≠ .skipDir := by
  simp only [filterEval]
  split <;> simp

/-- The regex filter never prunes a subtree. -/
theorem filterEval_regs_ne_skipDir (m : GoStr → Bool) (p : GoPath) :
    filterEval (.regs m) p ≠ .skipDir := by
  simp only [filterEval]
  split <;> simp

/-- Only the hidden filter can make a chain return `SkipDir`, and then
the hidden filter itself returns `SkipDir` on that path. -/
theorem chainEval_skipDir {p : GoPath} :
    ∀ specs : List FilterSpec, chainEval specs p = .skipDir →
    FilterSpec.hidden ∈ specs ∧ filterEval .hidden p = .skipDir := by
  intro specs
  induction specs with
  | nil => simp [chainEval]
  | cons t rest ih =>
    intro h
    cases hft : filterEval t p with
    | accept =>
      rcases ih (by simpa [chainEval, hft] using h) with ⟨hm, hh⟩
      exact ⟨List.mem_cons_of_mem _ hm, hh⟩
    | skip => simp [chainEval, hft] at h
    | skipDir =>
      cases t with
      | exts allow => exact absurd hft (filterEval_exts_ne_skipDir allow p)
      | hidden => exact ⟨List.mem_cons_self _ _, hft⟩
      | regs m => exact absurd hft (filterEval_regs_ne_skipDir m p)

/-- If the hidden filter prunes at the file `cur ++ [n]`, it also
rejects (with `SkipDir`) every path strictly below `cur`: the dotted
component that triggered the prune sits above the final two components
of every such path. -/
theorem filterEval_hidden_extend {cur : GoPath} {n : GoStr}
    (h : filterEval .hidden (cur ++ [n]) = .skipDir) :
    ∀ suf : GoPath, suf ≠ [] → filterEval .hidden (cur ++ suf) = .skipDir := by
  intro suf hne
  have hany : (cur ++ [n]).dropLast.dropLast.any startsDot = true := by
    cases hca : (cur ++ [n]).dropLast.dropLast.any startsDot with
    | true => rfl
    | false =>
      simp only [filterEval, hca, Bool.false_eq_true, if_false] at h
      split at h <;> simp_all
  rw [List.dropLast_concat] at hany
  rcases List.any_eq_true.mp hany with ⟨c, hc, hcdot⟩
  have hgoal : (cur ++ suf).dropLast.dropLast.any startsDot = true := by
    match suf, hne with
    | [x], _ =>
      rw [List.dropLast_concat]
      exact List.any_eq_true.mpr ⟨c, hc, hcdot⟩
    | x :: y :: t, _ =>
      have h1 : (cur ++ (x :: y :: t)).dropLast = cur ++ (x :: y :: t).dropLast := by
        rw [List.dropLast_append_of_ne_nil] <;> simp
      have h2 : (cur ++ (x :: y :: t).dropLast).dropLast
          = cur ++ (x :: y :: t).dropLast.dropLast := by
        rw [List.dropLast_append_of_ne_nil]
        simp
      rw [h1, h2]
      exact List.any_eq_true.mpr
        ⟨c, List.mem_append_left _ ((List.dropLast_sublist cur).subset hc), hcdot⟩
  simp only [filterEval, hgoal, if_true]

/-- Once a chain answers `SkipDir` at a file of the directory `cur`,
no path strictly below `cur` is accepted by the chain. -/
theorem chainEval_skipDir_blocks {specs : List FilterSpec} {cur : GoPath} {n : GoStr}
    (h : chainEval specs (cur ++ [n]) = .skipDir) :
    ∀ suf : GoPath, suf ≠ [] → chainEval specs (cur ++ suf) ≠ .accept := by
  intro suf hne
  rcases chainEval_skipDir _ h with ⟨hmem, hh⟩
  exact chainEval_ne_accept_of_mem _ hmem
    (by rw [filterEval_hidden_extend hh suf hne]; simp)

/-- The walk of `extractor.Files` yields exactly the reachable files
accepted by the filter chain, in traversal order: dropping the rest of
a directory after a `SkipDir` loses only paths the chain rejects
anyway. -/
theorem walkEntries_eq_filter (specs : List FilterSpec) :
    ∀ (cur : GoPath) (es : List FSTree),
    walkEntries specs cur es
      = (allFiles cur es).filter (fun p => chainEval specs p = .accept) := by
  intro cur es
  induction cur, es using allFiles.induct with
  | case1 cur => simp [walkEntries, allFiles]
  | case2 cur n c rest ih =>
    cases hch : chainEval specs (cur ++ [n]) with
    | accept => simp [walkEntries, allFiles, hch, ih]
    | skip => simp [walkEntries, allFiles, hch, ih]
    | skipDir =>
      simp only [walkEntries, allFiles, hch]
      rw [List.filter_cons_of_neg (by simp [hch]), eq_comm]
      rw [List.filter_eq_nil_iff]
      intro q hq
      rcases mem_allFiles cur rest hq with ⟨suf, hsne, hsuf⟩
      subst hsuf
      simpa using chainEval_skipDir_blocks hch suf hsne
  | case3 cur n r cs rest ih₁ ih₂ =>
    by_cases hr : r
    · simp [walkEntries, allFiles, hr, ih₁, ih₂, List.filter_append]
    · simp [walkEntries, allFiles, hr, ih₂]

/-- Appending a file entry never turns the walk result into an error:
files are skipped or collected, never fatal. -/
theorem collectEntries_file_isOk (ign : GoPath → Bool) (root rel : GoPath)
    (n : GoStr) (c : Option GoStr) {rest : List FSTree} {tl : List FileDataM}
    (h : collectEntries ign root rel rest = .ok tl) :
    ∃ l, collectEntries ign root rel (.file n c :: rest) = .ok l := by
  simp only [collectEntries, h]
  split
  · exact ⟨tl, rfl⟩
  split
  · exact ⟨tl, rfl⟩
  split
  · cases c
    · exact ⟨tl, rfl⟩
    · exact ⟨_, rfl⟩
  · exact ⟨tl, rfl⟩

/-- The walk of `collectFiles` returns an error exactly when it
reaches an unreadable directory that no check pruned, and the error
it returns is the first such directory in traversal order. -/
theorem collectEntries_error_iff (ign : GoPath → Bool) (root : GoPath) :
    ∀ (rel : GoPath) (es : List FSTree) (p : GoPath),
    collectEntries ign root rel es = .error p ↔
      firstUnreadable ign root rel es = some p := by
  intro rel es
  induction rel, es using allFiles.induct with
  | case1 rel => intro p; simp [collectEntries, firstUnreadable]
  | case2 rel n c rest ih =>
    intro p
    have hfu : firstUnreadable ign root rel (FSTree.file n c :: rest)
        = firstUnreadable ign root rel rest := by simp [firstUnreadable]
    cases h : collectEntries ign root rel rest with
    | error e =>
      have hl : collectEntries ign root rel (FSTree.file n c :: rest) = .error e := by
        simp [collectEntries, h]
      rw [hl, hfu, ← ih p, h]
    | ok tl =>
      rcases collectEntries_file_isOk ign root rel n c h with ⟨l, hl⟩
      rw [hl, hfu, ← ih p, h]
      simp
  | case3 rel n r cs rest ih₁ ih₂ =>
    intro p
    by_cases h4 : r
    · by_cases h1 : n = nmName ∨ n = gitName
      · simpa [collectEntries, firstUnreadable, h4, h1] using ih₂ p
      · by_cases h2 : ign (rel ++ [n])
        · simpa [collectEntries, firstUnreadable, h4, h1, h2] using ih₂ p
        · by_cases h3 : startsDot n
          · simpa [collectEntries, firstUnreadable, h4, h1, h2, h3] using ih₂ p
          · cases hcs : collectEntries ign root (rel ++ [n]) cs with
            | error e =>
              have hfucs : firstUnreadable ign root (rel ++ [n]) cs = some e :=
                (ih₁ e).mp hcs
              simp [collectEntries, firstUnreadable, h4, h1, h2, h3, hcs, hfucs]
            | ok xs =>
              have hfucs : firstUnreadable ign root (rel ++ [n]) cs = none := by
                cases hf : firstUnreadable ign root (rel ++ [n]) cs with
                | none => rfl
                | some e => exact absurd ((ih₁ e).mpr hf) (by simp [hcs])
              have hr : firstUnreadable ign root rel (FSTree.dir n r cs :: rest)
                  = firstUnreadable ign root rel rest := by
                simp [firstUnreadable, h4, h1, h2, h3, hfucs]
              cases h : collectEntries ign root rel rest with
              | error e =>
                have hl : collectEntries ign root rel (FSTree.dir n r cs :: rest)
                    = .error e := by
                  simp [collectEntries, h4, h1, h2, h3, hcs, h]
                rw [hl, hr, ← ih₂ p, h]
              | ok tl =>
                have hl : collectEntries ign root rel (FSTree.dir n r cs :: rest)
                    = .ok (xs ++ tl) := by
                  simp [collectEntries, h4, h1, h2, h3, hcs, h]
                rw [hl, hr, ← ih₂ p, h]
                simp
    · simp [collectEntries, firstUnreadable, h4]

/-- The extension test rejects the bare name `node_modules` (it has no
extension). -/
theorem mainExtAccept_nm : mainExtAccept nmName = false := by decide

/-- The name `.git` is a hidden name. -/
theorem startsDot_git : startsDot gitName = true := by decide

/-- Every file collected by `collectFiles` lies strictly below the
directory being walked, and no component of its path below that
directory is hidden or named `node_modules` or `.git`: pruned
directories are never descended into. -/
theorem collectEntries_rel_clean (ign : GoPath → Bool) (root : GoPath) :
    ∀ (rel : GoPath) (es : List FSTree) (files : List FileDataM),
    collectEntries ign root rel es = .ok files →
    ∀ fd ∈ files, ∃ suf, suf ≠ [] ∧ fd.path = root ++ rel ++ suf ∧
      ∀ c ∈ suf, startsDot c = false ∧ c ≠ nmName ∧ c ≠ gitName := by
  intro rel es
  induction rel, es using allFiles.induct with
  | case1 rel =>
    intro files h fd hfd
    simp only [collectEntries] at h
    cases h
    simp at hfd
  | case2 rel n c rest ih =>
    intro files h fd hfd
    cases hrest : collectEntries ign root rel rest with
    | error e => simp [collectEntries, hrest] at h
    | ok tl =>
      simp only [collectEntries, hrest] at h
      split at h
      · cases h; exact ih _ hrest fd hfd
      · split at h
        · cases h; exact ih _ hrest fd hfd
        · split at h
          · rename_i hdot hext
            cases c with
            | none => cases h; exact ih _ hrest fd hfd
            | some data =>
              cases h
              rcases List.mem_cons.mp hfd with hfd | hfd
              · refine ⟨[n], by simp, by simp [hfd], ?_⟩
                intro c hc
                rcases List.mem_singleton.mp hc with rfl
                refine ⟨by simpa using hdot, ?_, ?_⟩
                · intro hnm; rw [hnm] at hext; simp [mainExtAccept_nm] at hext
                · intro hgit; rw [hgit] at hdot; simp [startsDot_git] at hdot
              · exact ih _ hrest fd hfd
          · cases h; exact ih _ hrest fd hfd
  | case3 rel n r cs rest ih₁ ih₂ =>
    intro files h fd hfd
    by_cases h4 : r
    · by_cases h1 : n = nmName ∨ n = gitName
      · exact ih₂ files (by simpa [collectEntries, h4, h1] using h) fd hfd
      · by_cases h2 : ign (rel ++ [n])
        · exact ih₂ files (by simpa [collectEntries, h4, h1, h2] using h) fd hfd
        · by_cases h3 : startsDot n
          · exact ih₂ files (by simpa [collectEntries, h4, h1, h2, h3] using h) fd hfd
          · cases hcs : collectEntries ign root (rel ++ [n]) cs with
            | error e => simp [collectEntries, h4, h1, h2, h3, hcs] at h
            | ok xs =>
              cases hrest : collectEntries ign root rel rest with
              | error e => simp [collectEntries, h4, h1, h2, h3, hcs, hrest] at h
              | ok tl =>
                have : files = xs ++ tl := by
                  have := h
                  simp [collectEntries, h4, h1, h2, h3, hcs, hrest] at this
                  exact this.symm
                subst this
                rcases List.mem_append.mp hfd with hfd | hfd
                · rcases ih₁ xs hcs fd hfd with ⟨suf, hne, hpath, hcomp⟩
                  refine ⟨n :: suf, by simp, by simpa using hpath, ?_⟩
                  intro c hc
                  rcases List.mem_cons.mp hc with rfl | hc
                  · push_neg at h1
                    exact ⟨by simpa using h3, h1.1, h1.2⟩
                  · exact hcomp c hc
                · exact ih₂ tl hrest fd hfd
    · simp [collectEntries, h4] at h

/-- A file whose read fails is invisible to the walk of
`collectFiles`: the walk result over any directory listing containing
it equals the result over the listing without it — the file is skipped
(with a warning) and the traversal continues. -/
theorem collectEntries_unreadable_file_skipped (ign : GoPath → Bool) (root : GoPath) :
    ∀ (rel : GoPath) (pre : List FSTree) (n : GoStr) (post : List FSTree),
    collectEntries ign root rel (pre ++ FSTree.file n none :: post)
      = collectEntries ign root rel (pre ++ post) := by
  intro rel pre n post
  induction pre with
  | nil =>
    simp only [List.nil_append]
    cases h : collectEntries ign root rel post with
    | error e => simp [collectEntries, h]
    | ok tl =>
      simp only [collectEntries, h]
      split
      · rfl
      split
      · rfl
      split
      · rfl
      · rfl
  | cons e pre' ih =>
    cases e with
    | file n' c' => simp [collectEntries, ih]
    | dir n' r' cs' => simp [collectEntries, ih]

/-- Concatenating the chunks of the ids-based batch loop restores the
original list in order. -/
theorem batchChunks_flatten {α : Type} (b : Nat) (hb : 0 < b) :
    ∀ l : List α, (batchChunks b l).flatten = l := by
  intro l
  generalize hk : l.length = k
  induction k using Nat.strong_induction_on generalizing l with
  | _ k ih =>
    subst hk
    rw [batchChunks]
    by_cases hl : 0 < l.length
    · rw [dif_pos ⟨hb, hl⟩, List.flatten_cons,
        ih (l.drop b).length (by simp; omega) _ rfl, List.take_append_drop]
    · rw [dif_neg (by tauto)]
      have hnil : l = [] := by cases l <;> simp_all
      simp [hnil]

/-- Every chunk of the ids-based batch loop has at most `b` items. -/
theorem batchChunks_le {α : Type} (b : Nat) :
    ∀ l : List α, ∀ c ∈ batchChunks b l, c.length ≤ b := by
  intro l
  generalize hk : l.length = k
  induction k using Nat.strong_induction_on generalizing l with
  | _ k ih =>
    subst hk
    intro c hc
    rw [batchChunks] at hc
    by_cases hcond : 0 < b ∧ 0 < l.length
    · rw [dif_pos hcond] at hc
      rcases List.mem_cons.mp hc with rfl | hc
      · simpa using List.length_take_le b l
      · exact ih (l.drop b).length (by simp; omega) _ rfl c hc
    · rw [dif_neg hcond] at hc
      simp at hc

/-- The number of chunks of the ids-based batch loop is the ceiling of
`length / b`. -/
theorem batchChunks_count {α : Type} (b : Nat) (hb : 0 < b) :
    ∀ l : List α, (batchChunks b l).length = (l.length + b - 1) / b := by
  intro l
  generalize hk : l.length = k
  induction k using Nat.strong_induction_on generalizing l with
  | _ k ih =>
    subst hk
    rw [batchChunks]
    by_cases hl : 0 < l.length
    · rw [dif_pos ⟨hb, hl⟩, List.length_cons,
        ih (l.drop b).length (by simp; omega) _ rfl]
      simp only [List.length_drop]
      have h1 : (l.length + b - 1) / b = (l.length - 1) / b + 1 := by
        rw [Nat.div_eq_sub_div hb (by omega)]
        have h2 : l.length + b - 1 - b = l.length - 1 := by omega
        rw [h2]
      by_cases hle : l.length ≤ b
      · have h2 : l.length - b = 0 := by omega
        rw [h2, h1, Nat.div_eq_of_lt (show 0 + b - 1 < b by omega),
          Nat.div_eq_of_lt (show l.length - 1 < b by omega)]
      · have h2 : l.length - b + b - 1 = l.length - 1 := by omega
        rw [h2, h1]
    · rw [dif_neg (by tauto)]
      have hnil : l = [] := by cases l <;> simp_all
      subst hnil
      simp [Nat.div_eq_of_lt (show b - 1 < b by omega)]

/-- Extending the result list past the loop's index range does not
change what the printing loop emits. -/
theorem printFrom_append (rs : List QueryResultM) (a : QueryResultM) :
    ∀ k, k ≤ rs.length → printFrom (rs ++ [a]) k = printFrom rs k := by
  intro k
  induction k with
  | zero => intro _; rfl
  | succ k ih =>
    intro hk
    rw [printFrom, printFrom, ih (by omega)]
    congr 1
    rw [List.getD_eq_getElem?_getD, List.getD_eq_getElem?_getD,
      List.getElem?_append_left (by omega)]

/-- The printing loop of `queryDB` emits the result list in reverse:
index `len-1` first, index `0` last. -/
theorem printedOrder_eq_reverse : ∀ rs : List QueryResultM, printedOrder rs = rs.reverse := by
  intro rs
  induction rs using List.reverseRecOn with
  | nil => rfl
  | append_singleton l a ih =>
    rw [printedOrder] at ih ⊢
    simp only [List.length_append, List.length_singleton]
    rw [printFrom, printFrom_append l a l.length (by omega), ih]
    have hget : (l ++ [a]).getD l.length default = a := by
      rw [List.getD_eq_getElem?_getD, List.getElem?_concat_length]
      rfl
    rw [hget, List.reverse_append]
    rfl

/-- Unfolding `intercalate` over a singleton. -/
theorem intercalate_singleton {α : Type} (s x : List α) :
    List.intercalate s [x] = x := by
  simp [List.intercalate]

/-- Unfolding `intercalate` over two or more elements. -/
theorem intercalate_cons_cons {α : Type} (s x y : List α) (t : List (List α)) :
    List.intercalate s (x :: y :: t) = x ++ s ++ List.intercalate s (y :: t) := by
  simp [List.intercalate, List.intersperse_cons_cons, List.append_assoc]

/-- Mapping a function over a joined path maps it over the separator
and over every component. -/
theorem map_intercalate {α β : Type} (f : α → β) (s : List α) :
    ∀ l : List (List α),
    (List.intercalate s l).map f = List.intercalate (s.map f) (l.map (List.map f)) := by
  intro l
  induction l with
  | nil => simp [List.intercalate]
  | cons x t ih =>
    cases t with
    | nil => simp [intercalate_singleton]
    | cons y t' =>
      rw [intercalate_cons_cons, List.map_append, List.map_append, ih]
      simp [intercalate_cons_cons, List.append_assoc]

/-- On a path whose components are free of `/`, replacing `/` by `_`
in the joined path string joins the untouched components with `_`. -/
theorem goReplaceSlash_pathStr (p : GoPath) (hp : ∀ c ∈ p, ('/' : Char) ∉ c) :
    goReplaceSlash (pathStr p) = List.intercalate ['_'] p := by
  unfold goReplaceSlash pathStr
  rw [map_intercalate]
  have hsep : List.map (fun c => if c = '/' then '_' else c) ['/'] = ['_'] := by decide
  have hcomp : p.map (List.map fun c => if c = '/' then '_' else c) = p := by
    rw [show p.map (List.map fun c => if c = '/' then '_' else c) = p.map id from ?_,
       List.map_id]
    apply List.map_congr_left
    intro c hc
    rw [show List.map (fun c => if c = '/' then '_' else c) c = List.map id c from ?_,
       List.map_id, id]
    apply List.map_congr_left
    intro ch hch
    have : ch ≠ '/' := fun hh => hp c hc (hh ▸ hch)
    simp [this]
  rw [hsep, hcomp]

/-- A `_`-joined path with a non-empty first component is non-empty. -/
theorem intercalate_underscore_ne_nil :
    ∀ p : GoPath, p ≠ [] → (∀ c ∈ p, c ≠ []) → List.intercalate ['_'] p ≠ [] := by
  intro p hne hh
  match p, hne with
  | [x], _ =>
    rw [intercalate_singleton]
    exact hh x (by simp)
  | x :: y :: t, _ =>
    rw [intercalate_cons_cons]
    simp

/-- Joining with `_` is injective on non-empty lists of `_`-free
components (inverted by splitting on `_`). -/
theorem intercalate_underscore_inj {p q : GoPath}
    (hp : ∀ x ∈ p, ('_' : Char) ∉ x) (hq : ∀ x ∈ q, ('_' : Char) ∉ x)
    (hpne : p ≠ []) (hqne : q ≠ [])
    (h : List.intercalate ['_'] p = List.intercalate ['_'] q) : p = q := by
  rw [← List.splitOn_intercalate p '_' hp hpne, ← List.splitOn_intercalate q '_' hq hqne, h]

/-- A chain accepts a path only when every registered filter accepts
it. -/
theorem filterEval_accept_of_chain {specs : List FilterSpec} {p : GoPath}
    (h : chainEval specs p = .accept) :
    ∀ s ∈ specs, filterEval s p = .accept := by
  intro s hs
  by_contra hne
  exact chainEval_ne_accept_of_mem specs hs hne h

/-- C1: the claim fails on `chroma.go`.  For 250 items with
`batchSize = 100`, the loop `paths[i:max(i+batchSize, len(paths))]`
produces the slice bounds `(0,250)`, `(100,250)` and `(200,300)`: the
first "chunk" is the whole list (size 250, not at most 100), the
chunks overlap instead of partitioning, and the final upper bound 300
exceeds the list length 250, an out-of-range slice that panics at
run time.  With `min` (as in the ids-based variant at the end of
`dirextractor.go`) the bounds would be `(0,100)`, `(100,200)`,
`(200,250)`. -/
theorem c1_chroma_bounds_bug :
    chromaBatchBounds 250 100 0 = [(0, 250), (100, 250), (200, 300)]
    ∧ 250 - 0 > 100 ∧ 300 > 250 := by
  refine ⟨?_, by norm_num, by norm_num⟩
  rw [chromaBatchBounds]
  norm_num
  rw [chromaBatchBounds]
  norm_num
  rw [chromaBatchBounds]
  norm_num
  rw [chromaBatchBounds]
  norm_num

/-- C2: counterexample.  With the hidden filter installed, `Files`
over root `/t` yields `/t/.h/v.txt` — a file lying directly under the
hidden directory `.h`.  The walk does descend into `.h` (directories
are never filtered), and `WithIgnoreHidden` exempts the final two path
components from its dot check, so the file is accepted and appears in
the produced sequence, contradicting the claim. -/
theorem c2_counterexample :
    dirFiles [FilterSpec.hidden] [['t']] c2Tree
      = [[['t'], ['.', 'h'], ['v', '.', 't', 'x', 't']]]
    ∧ startsDot ['.', 'h'] = true := by
  constructor
  · simp [dirFiles, walkEntries, chainEval, filterEval, startsDot, c2Tree]
  · decide

/-- C2 (amended): what the code does guarantee.  In `dirextractor`,
every produced path passes the hidden filter itself: no component
other than the final two is dot-prefixed and the leaf is not
dot-prefixed, so a file at depth two or more below a hidden directory
never appears — but a non-hidden file directly inside a hidden
directory may appear, and hidden directories are descended into.  In
`collectFiles` (`main.go`) pruning is complete: every collected file
lies strictly below the root along components that are not hidden and
not named `node_modules` or `.git`. -/
theorem c2_amended (specs : List FilterSpec) (root : GoPath) (es : List FSTree)
    (hh : FilterSpec.hidden ∈ specs)
    (ign : GoPath → Bool) (root2 : GoPath) (es2 : List FSTree) (files : List FileDataM)
    (hok : collectFiles ign root2 es2 = .ok files) :
    (∀ p ∈ dirFiles specs root es, filterEval .hidden p = .accept)
    ∧ (∀ fd ∈ files, ∃ suf, suf ≠ [] ∧ fd.path = root2 ++ suf ∧
        ∀ c ∈ suf, startsDot c = false ∧ c ≠ nmName ∧ c ≠ gitName) := by
  constructor
  · intro p hp
    rw [dirFiles, walkEntries_eq_filter] at hp
    have hacc : chainEval specs p = .accept := by
      have := (List.mem_filter.mp hp).2
      simpa using this
    exact filterEval_accept_of_chain hacc .hidden hh
  · intro fd hfd
    rcases collectEntries_rel_clean ign root2 [] es2 files hok fd hfd with
      ⟨suf, hne, hpath, hcomp⟩
    exact ⟨suf, hne, by simpa using hpath, hcomp⟩

/-- C2: witness for the amended theorem at the concrete trees. -/
theorem c2_witness :
    filterEval .hidden [['t'], ['.', 'h'], ['v', '.', 't', 'x', 't']] = .accept := by
  have h := c2_amended [FilterSpec.hidden] [['t']] c2Tree (by simp)
    (fun _ => false) [['r']] c2wTree
    [⟨[['r'], ['a', '.', 'g', 'o']], ['a', '.', 'g', 'o'], ['x'], 1⟩]
    (by simp [collectFiles, collectEntries, c2wTree, startsDot, mainExtAccept, goExt,
      goToLower, validExtensions, nmName, gitName])
  exact h.1 _ (by simp [dirFiles, walkEntries, chainEval, filterEval, startsDot, c2Tree])

/-- C3: counterexample.  An ingestion run over `c3Tree` collects two
files with distinct paths, but `strings.ReplaceAll(path, "/", "_")`
maps both `r/a/b.txt` and `r/a_b.txt` to `r_a_b.txt`: the identifiers
handed to the batch add-call are not pairwise distinct. -/
theorem c3_counterexample :
    collectFiles (fun _ => false) [['r']] c3Tree = .ok [fdA, fdB]
    ∧ fdA.path ≠ fdB.path
    ∧ ¬ (docIDs [fdA, fdB]).Nodup := by
  refine ⟨?_, by decide, by decide⟩
  simp [collectFiles, collectEntries, c3Tree, startsDot, mainExtAccept, goExt, goToLower,
    validExtensions, nmName, gitName, fdA, fdB]

/-- C3 (amended): identifiers are non-empty, and they are pairwise
distinct provided the collected paths are pairwise distinct and no
path component contains `_` (or `/`).  Without that proviso two
distinct paths can collide, as the counterexample shows. -/
theorem c3_amended (ign : GoPath → Bool) (root : GoPath)
    (es : List FSTree) (files : List FileDataM)
    (hok : collectFiles ign root es = .ok files)
    (hcomp : ∀ fd ∈ files, ∀ c ∈ fd.path, c ≠ [] ∧ ('/' : Char) ∉ c ∧ ('_' : Char) ∉ c)
    (hnodup : (files.map (fun fd => fd.path)).Nodup) :
    (∀ id ∈ docIDs files, id ≠ []) ∧ (docIDs files).Nodup := by
  have hpathne : ∀ fd ∈ files, fd.path ≠ [] := by
    intro fd hfd
    rcases collectEntries_rel_clean ign root [] es files hok fd hfd with
      ⟨suf, hne, hpath, _⟩
    rw [hpath]
    simp [hne]
  constructor
  · intro id hid
    rcases List.mem_map.mp hid with ⟨fd, hfd, rfl⟩
    rw [goReplaceSlash_pathStr _ (fun c hc => (hcomp fd hfd c hc).2.1)]
    exact intercalate_underscore_ne_nil _ (hpathne fd hfd)
      (fun c hc => (hcomp fd hfd c hc).1)
  · have hrw : docIDs files = (files.map (fun fd => fd.path)).map
        (fun p => goReplaceSlash (pathStr p)) := by
      rw [List.map_map]; rfl
    rw [hrw]
    apply List.Nodup.map_on ?_ hnodup
    intro x hx y hy hxy
    rcases List.mem_map.mp hx with ⟨fdx, hfdx, rfl⟩
    rcases List.mem_map.mp hy with ⟨fdy, hfdy, rfl⟩
    rw [goReplaceSlash_pathStr _ (fun c hc => (hcomp fdx hfdx c hc).2.1),
      goReplaceSlash_pathStr _ (fun c hc => (hcomp fdy hfdy c hc).2.1)] at hxy
    exact intercalate_underscore_inj
      (fun c hc => (hcomp fdx hfdx c hc).2.2) (fun c hc => (hcomp fdy hfdy c hc).2.2)
      (hpathne fdx hfdx) (hpathne fdy hfdy) hxy

/-- C3: witness for the amended theorem at a concrete run. -/
theorem c3_witness :
    (∀ id ∈ docIDs [fdWA, fdWB], id ≠ []) ∧ (docIDs [fdWA, fdWB]).Nodup :=
  c3_amended (fun _ => false) [['r']] c3wTree [fdWA, fdWB]
    (by simp [collectFiles, collectEntries, c3wTree, startsDot, mainExtAccept, goExt,
      goToLower, validExtensions, nmName, gitName, fdWA, fdWB])
    (by decide) (by decide)

/-- C4: counterexample.  `WithExtensions` in `dirextractor` compares
`filepath.Ext(path)` verbatim with `slices.Contains`: with allow-set
`{.txt}`, the path `FILE.TXT` is skipped while `file.txt` is accepted
— the two case-variants are not treated identically, refuting the
claim for this extension filter. -/
theorem c4_counterexample :
    filterEval (.exts [['.', 't', 'x', 't']])
        [['F', 'I', 'L', 'E', '.', 'T', 'X', 'T']] = .skip
    ∧ filterEval (.exts [['.', 't', 'x', 't']])
        [['f', 'i', 'l', 'e', '.', 't', 'x', 't']] = .accept := by
  decide

/-- C4 (amended): the extension test of `collectFiles` (`main.go`)
is case-insensitive — it looks up `strings.ToLower(filepath.Ext(path))`,
so any two names with the same lower-cased extension are treated
identically; `WithExtensions` in `dirextractor` performs no case
folding and is case-sensitive (see the counterexample). -/
theorem c4_amended (p q : GoStr)
    (h : goToLower (goExt p) = goToLower (goExt q)) :
    mainExtAccept p = mainExtAccept q := by
  unfold mainExtAccept
  rw [h]

/-- C4: witness — `FILE.TXT` and `file.txt` are treated identically
(and accepted) by the `collectFiles` extension test. -/
theorem c4_witness :
    goToLower (goExt ['F', 'I', 'L', 'E', '.', 'T', 'X', 'T'])
      = goToLower (goExt ['f', 'i', 'l', 'e', '.', 't', 'x', 't'])
    ∧ mainExtAccept ['F', 'I', 'L', 'E', '.', 'T', 'X', 'T']
      = mainExtAccept ['f', 'i', 'l', 'e', '.', 't', 'x', 't']
    ∧ mainExtAccept ['F', 'I', 'L', 'E', '.', 'T', 'X', 'T'] = true :=
  ⟨by decide, c4_amended _ _ (by decide), by decide⟩

/-- C5: counterexample.  `extractor.Files` does not abort on an
unreadable directory: its callback returns `nil` for directory
entries even when `WalkDir` hands it the read error, so the error is
swallowed and the traversal continues — here it still yields the file
`r/a.txt` that follows the unreadable directory `r/u`, and no error
reaches the caller (the produced sequence is the whole result). -/
theorem c5_counterexample :
    dirFiles [] [['r']] c5Tree = [[['r'], ['a', '.', 't', 'x', 't']]] := by
  simp [dirFiles, walkEntries, chainEval, c5Tree]

/-- C5 (amended): `collectFiles` (`main.go`) does abort: its walk
returns an error exactly when it reaches an unreadable directory, the
error names the first such directory in traversal order, and no file
list is produced.  `filepath.Walk` hands the read error to the
callback before any prune check runs, so even a directory named
`.git`/`node_modules`, gitignored or hidden aborts the walk when it
is unreadable; only unreadable directories inside pruned readable
subtrees are never reached.  `extractor.Files` (`dirextractor`)
instead swallows the error: an unreadable directory contributes
nothing and the walk continues with its siblings. -/
theorem c5_amended :
    (∀ (ign : GoPath → Bool) (root : GoPath) (es : List FSTree) (p : GoPath),
      collectFiles ign root es = .error p ↔ firstUnreadable ign root [] es = some p)
    ∧ (∀ (specs : List FilterSpec) (cur : GoPath) (n : GoStr)
        (cs rest : List FSTree),
      walkEntries specs cur (FSTree.dir n false cs :: rest)
        = walkEntries specs cur rest) := by
  constructor
  · intro ign root es p
    exact collectEntries_error_iff ign root [] es p
  · intro specs cur n cs rest
    simp [walkEntries]

/-- C5: witness — on a tree whose root holds the unreadable directory
`d`, `collectFiles` returns the walk error naming `r/d`. -/
theorem c5_witness :
    collectFiles (fun _ => false) [['r']] c5wTree = .error [['r'], ['d']] :=
  (c5_amended.1 (fun _ => false) [['r']] c5wTree [['r'], ['d']]).mpr
    (by simp [firstUnreadable, c5wTree, startsDot, nmName, gitName])

/-- C6: the claim fails on `main.go`.  On its success path `queryDB`
fetches the collection twice and issues the query twice, and the
`delete` command calls `DeleteCollection` twice — not exactly once as
the claim states.  (The spec itself flags this duplication as
accidental.) -/
theorem c6_duplicated_store_calls (name q : GoStr) :
    (queryDBCalls name q).count (.getCollection name) = 2
    ∧ (queryDBCalls name q).count (.queryCall q 5) = 2
    ∧ (deleteCollectionCalls name).count (.deleteCollection name) = 2 := by
  simp [queryDBCalls, deleteCollectionCalls]

/-- C7: a failed file read never aborts the enclosing walk or chunk.
Left: a file whose read fails is simply invisible to the walk of
`collectFiles` — the result over any listing containing it equals the
result over the listing without it, so traversal continues (the file
is skipped with a warning).  Right: in the per-chunk loop of
`BatchAddDocuments` (`chroma.go`) an unreadable entry only zeroes its
own three slots; every other entry keeps its position and data, and
the chunk's single `Add` call is still built and issued. -/
theorem c7_read_failures_tolerated :
    (∀ (ign : GoPath → Bool) (root rel : GoPath) (pre : List FSTree) (n : GoStr)
        (post : List FSTree),
      collectEntries ign root rel (pre ++ FSTree.file n none :: post)
        = collectEntries ign root rel (pre ++ post))
    ∧ (∀ (read : GoStr → Option GoStr) (pre : List GoStr) (p : GoStr)
        (post : List GoStr),
      read p = none →
      buildAddCall read (pre ++ p :: post)
        = { ids := (buildAddCall read pre).ids ++ [] :: (buildAddCall read post).ids
          , texts := (buildAddCall read pre).texts
              ++ [] :: (buildAddCall read post).texts
          , metas := (buildAddCall read pre).metas
              ++ none :: (buildAddCall read post).metas }) := by
  constructor
  · intro ign root rel pre n post
    exact collectEntries_unreadable_file_skipped ign root rel pre n post
  · intro read pre p post hp
    simp [buildAddCall, hp]

/-- C7: witness at a concrete walk and a concrete chunk. -/
theorem c7_witness :
    collectEntries (fun _ => false) [['r']] [] [FSTree.file ['a'] none]
      = collectEntries (fun _ => false) [['r']] [] []
    ∧ buildAddCall (fun _ => none) [['p']]
      = { ids := [[]], texts := [[]], metas := [none] } := by
  constructor
  · exact c7_read_failures_tolerated.1 (fun _ => false) [['r']] [] [] ['a'] []
  · have h := c7_read_failures_tolerated.2 (fun _ => none) [] ['p'] [] rfl
    simpa [buildAddCall] using h

/-- C8: the query mapping of `Collection.Query` agrees with the
spec's description on every boundary response: the grouped result
structure is flattened to (filename, path, content) triples in the
boundary's order, an absent metadata field becomes the empty string,
and an empty response maps to an empty list (with no error — the
function has no failure path after the boundary call). -/
theorem c8_query_mapping (documents : List (List GoStr))
    (metadatas : List (List GoMetadata)) :
    queryMap documents metadatas = querySpec documents metadatas := by
  cases documents with
  | nil => rfl
  | cons docs0 rest =>
    simp only [queryMap, querySpec, List.head?_cons]
    by_cases h0 : docs0.length = 0
    · have hnil : docs0 = [] := List.length_eq_zero.mp h0
      subst hnil
      simp
    · rw [if_neg h0]
      apply List.ext_getElem
      · simp
      · intro i hi1 hi2
        rw [List.getElem_mapIdx, List.getElem_mapIdx]
        by_cases hm : 0 < metadatas.length ∧ i < (metadatas.head?.getD []).length
        · rw [if_pos hm]
          simp [List.getElem?_eq_getElem hm.2]
        · rw [if_neg hm]
          have hget : (metadatas.head?.getD [])[i]? = none := by
            rcases Decidable.not_and_iff_or_not.mp hm with h | h
            · have hmet : metadatas = [] := by
                cases metadatas <;> simp_all
              simp [hmet]
            · rw [List.getElem?_eq_none]
              omega
          simp [hget]

/-- C9: each invocation of `extractor.Files` starts a fresh walk and
produces this pure function of the (unchanged) tree and the filter
chain: exactly the reachable files the chain accepts, in traversal
order — the `SkipDir` shortcut only drops paths the chain rejects
anyway.  Two invocations over the same tree therefore yield the same
list, in particular the same set of paths. -/
theorem c9_files_restartable (specs : List FilterSpec) (root : GoPath)
    (es : List FSTree) :
    dirFiles specs root es
      = (allFiles root es).filter (fun p => chainEval specs p = .accept) :=
  walkEntries_eq_filter specs root es

/-- C10: the printing loop of `queryDB` runs the index from
`len(results)-1` down to `0`, so it prints the result list in reverse:
the lowest-ranked result first and the top-ranked result last. -/
theorem c10_print_reversed (rs : List QueryResultM) (h : rs ≠ []) :
    printedOrder rs = rs.reverse
    ∧ (printedOrder rs).head? = some (rs.getLast h)
    ∧ (printedOrder rs).getLast? = some (rs.head h) := by
  refine ⟨printedOrder_eq_reverse rs, ?_, ?_⟩
  · rw [printedOrder_eq_reverse, List.head?_reverse, List.getLast?_eq_getLast rs h]
  · rw [printedOrder_eq_reverse, List.getLast?_reverse, List.head?_eq_head h]

/-- C10: witness — on the two-result list the loop prints the
second-ranked result first and the top-ranked one last. -/
theorem c10_witness :
    printedOrder [qrTop, qrLow] = [qrLow, qrTop]
    ∧ (printedOrder [qrTop, qrLow]).head? = some qrLow
    ∧ (printedOrder [qrTop, qrLow]).getLast? = some qrTop := by
  have h := c10_print_reversed [qrTop, qrLow] (by simp)
  simpa using h
